import Mathlib

/-!
Verification of the TwistedRecamanSequence generator (`seq.py`).

The file embeds the program shallowly: `recemans_sequence` mirrors the
integer-sequence loop, `interpolate_arcs`, `rotation_matrix_from_vectors`,
`circle_xy` and `tube_along_curve` mirror the geometry pipeline over exact
real arithmetic, and `pipeline` mirrors the post-parsing body of `main`.
-/

/-- One loop iteration of `recemans_sequence` in `seq.py`:
`if (a - i) < 0 or (a - i) in seq: a = a + i else: a = a - i`. -/
def recaman_next (a : ℤ) (seq : List ℤ) (i : ℕ) : ℤ :=
  if a - (i : ℤ) < 0 ∨ (a - (i : ℤ)) ∈ seq then a + (i : ℤ) else a - (i : ℤ)

/-- The loop `for i in range(1, n)` of `recemans_sequence`, carrying the
running value `a` and the list built so far. `steps` is the number of
remaining iterations and `i` the current loop index. -/
def recSeqAux : ℕ → ℕ → ℤ → List ℤ → List ℤ
  | 0, _, _, seq => seq
  | steps + 1, i, a, seq =>
      recSeqAux steps (i + 1) (recaman_next a seq i) (seq ++ [recaman_next a seq i])

/-- Definition of `recemans_sequence(n)` from `seq.py`: starts from `a, seq = 0, [0]` and
iterates `recaman_next` for `i` in `range(1, n)`. -/
def recemans_sequence (n : ℕ) : List ℤ :=
  recSeqAux (n - 1) 1 0 [0]

lemma recSeqAux_length (steps : ℕ) :
    ∀ (i : ℕ) (a : ℤ) (seq : List ℤ),
      (recSeqAux steps i a seq).length = steps + seq.length := by
  induction steps with
  | zero => intro i a seq; simp [recSeqAux]
  | succ k ih =>
      intro i a seq
      simp only [recSeqAux, ih]
      simp
      omega

lemma recSeqAux_getD (steps : ℕ) :
    ∀ (i : ℕ) (a : ℤ) (seq : List ℤ) (j : ℕ) (d : ℤ), j < seq.length →
      (recSeqAux steps i a seq).getD j d = seq.getD j d := by
  induction steps with
  | zero => intro i a seq j d _; simp [recSeqAux]
  | succ k ih =>
      intro i a seq j d hj
      simp only [recSeqAux]
      rw [ih _ _ _ _ _ (by simp; omega)]
      exact List.getD_append _ _ _ _ hj

lemma recSeqAux_take (steps : ℕ) :
    ∀ (i : ℕ) (a : ℤ) (seq : List ℤ) (j : ℕ), j ≤ seq.length →
      (recSeqAux steps i a seq).take j = seq.take j := by
  induction steps with
  | zero => intro i a seq j _; simp [recSeqAux]
  | succ k ih =>
      intro i a seq j hj
      simp only [recSeqAux]
      rw [ih _ _ _ _ (by simp; omega)]
      exact List.take_append_of_le_length hj

lemma getD_length_sub_one_of_getLast? {l : List ℤ} {a : ℤ} (h : l.getLast? = some a)
    (d : ℤ) : l.getD (l.length - 1) d = a := by
  have h1 : l[l.length - 1]? = some a := by
    rw [← List.getLast?_eq_getElem?]; exact h
  simp [List.getD_eq_getElem?_getD, h1]

lemma recSeqAux_inv (steps : ℕ) :
    ∀ (i : ℕ) (a : ℤ) (seq : List ℤ),
      seq.length = i → 0 < i → seq.getLast? = some a →
      (∀ x ∈ seq, 0 ≤ x) →
      (∀ j, 0 < j → j < seq.length →
          seq.getD j 0 = recaman_next (seq.getD (j - 1) 0) (seq.take j) j) →
      (∀ x ∈ recSeqAux steps i a seq, 0 ≤ x) ∧
      (∀ j, 0 < j → j < (recSeqAux steps i a seq).length →
          (recSeqAux steps i a seq).getD j 0
            = recaman_next ((recSeqAux steps i a seq).getD (j - 1) 0)
                ((recSeqAux steps i a seq).take j) j) := by
  induction steps with
  | zero =>
      intro i a seq _ _ _ h4 h5
      exact ⟨h4, h5⟩
  | succ k ih =>
      intro i a seq h1 h2 h3 h4 h5
      have hmem_a : a ∈ seq := List.mem_of_mem_getLast? h3
      have ha : 0 ≤ a := h4 a hmem_a
      have hbnn : 0 ≤ recaman_next a seq i := by
        unfold recaman_next
        split
        · omega
        · rename_i hc
          push_neg at hc
          omega
      simp only [recSeqAux]
      apply ih (i + 1) (recaman_next a seq i) (seq ++ [recaman_next a seq i])
      · simp [h1]
      · omega
      · exact List.getLast?_concat seq
      · intro x hx
        rcases List.mem_append.mp hx with hx | hx
        · exact h4 x hx
        · simp at hx
          omega
      · intro j hj hjlen
        simp only [List.length_append, List.length_singleton, h1] at hjlen
        rcases Nat.lt_or_ge j i with hji | hji
        · rw [List.getD_append _ _ _ _ (by omega),
              List.getD_append _ _ _ _ (by omega),
              List.take_append_of_le_length (by omega)]
          exact h5 j hj (by omega)
        · have hjeq : j = i := by omega
          subst hjeq
          rw [List.getD_append_right _ _ _ _ (by omega),
              List.getD_append _ _ _ _ (by omega)]
          have htake : (seq ++ [recaman_next a seq j]).take j = seq := by
            rw [← h1]
            exact List.take_left seq _
          rw [htake, h1]
          simp only [Nat.sub_self, List.getD_cons_zero]
          have : seq.getD (j - 1) 0 = a := by
            rw [← h1]
            exact getD_length_sub_one_of_getLast? h3 0
          rw [this]

lemma recemans_sequence_inv (n : ℕ) :
    (∀ x ∈ recemans_sequence n, 0 ≤ x) ∧
    (∀ j, 0 < j → j < (recemans_sequence n).length →
        (recemans_sequence n).getD j 0
          = recaman_next ((recemans_sequence n).getD (j - 1) 0)
              ((recemans_sequence n).take j) j) := by
  unfold recemans_sequence
  apply recSeqAux_inv (n - 1) 1 0 [0]
  · simp
  · omega
  · simp
  · intro x hx; simp at hx; omega
  · intro j hj hjlen
    simp at hjlen
    omega

lemma recemans_sequence_length (n : ℕ) (hn : 1 ≤ n) :
    (recemans_sequence n).length = n := by
  unfold recemans_sequence
  rw [recSeqAux_length]
  simp
  omega

/-- C1 counterexample: `recemans_sequence 8` is not the list
`[0, 1, 3, 2, 7, 6, 13, 4]` the spec gives for the first 8 terms. -/
theorem generate_eight_ne_spec_list :
    recemans_sequence 8 ≠ [0, 1, 3, 2, 7, 6, 13, 4] := by decide

/-- C1 (amended): `generate(1)` returns `[0]` and `generate(8)` returns the
first 8 terms of OEIS A005132, namely `[0, 1, 3, 6, 2, 7, 13, 20]`. -/
theorem generate_concrete_values :
    recemans_sequence 1 = [0] ∧
    recemans_sequence 8 = [0, 1, 3, 6, 2, 7, 13, 20] := by decide

/-- C2: step rule of the generator. For `0 < i < n`, writing `seq` for
`generate(n)`: if `seq[i-1] - i ≥ 0` and `seq[i-1] - i` does not occur among
`seq[0..i-1]`, then `seq[i] = seq[i-1] - i`; otherwise `seq[i] = seq[i-1] + i`. -/
theorem generate_step_rule (n i : ℕ) (hi : 0 < i) (hin : i < n) :
    ((0 : ℤ) ≤ (recemans_sequence n).getD (i - 1) 0 - (i : ℤ) ∧
        (recemans_sequence n).getD (i - 1) 0 - (i : ℤ) ∉ (recemans_sequence n).take i →
      (recemans_sequence n).getD i 0 = (recemans_sequence n).getD (i - 1) 0 - (i : ℤ)) ∧
    (¬((0 : ℤ) ≤ (recemans_sequence n).getD (i - 1) 0 - (i : ℤ) ∧
        (recemans_sequence n).getD (i - 1) 0 - (i : ℤ) ∉ (recemans_sequence n).take i) →
      (recemans_sequence n).getD i 0 = (recemans_sequence n).getD (i - 1) 0 + (i : ℤ)) := by
  have hlen : (recemans_sequence n).length = n := recemans_sequence_length n (by omega)
  have hstep := (recemans_sequence_inv n).2 i hi (by omega)
  rw [hstep]
  unfold recaman_next
  constructor
  · intro hc
    rw [if_neg]
    push_neg
    exact ⟨by omega, hc.2⟩
  · intro hc
    rw [if_pos]
    by_contra hcon
    push_neg at hcon
    rcases hcon with ⟨h1, h2⟩
    exact hc ⟨by omega, h2⟩

/-- C2 witness at `n = 8`, `i = 3`. -/
theorem generate_step_rule_witness :
    0 < 3 ∧ 3 < 8 ∧
    (((0 : ℤ) ≤ (recemans_sequence 8).getD 2 0 - 3 ∧
        (recemans_sequence 8).getD 2 0 - 3 ∉ (recemans_sequence 8).take 3 →
      (recemans_sequence 8).getD 3 0 = (recemans_sequence 8).getD 2 0 - 3) ∧
    (¬((0 : ℤ) ≤ (recemans_sequence 8).getD 2 0 - 3 ∧
        (recemans_sequence 8).getD 2 0 - 3 ∉ (recemans_sequence 8).take 3) →
      (recemans_sequence 8).getD 3 0 = (recemans_sequence 8).getD 2 0 + 3)) :=
  ⟨by decide, by decide, generate_step_rule 8 3 (by decide) (by decide)⟩

/-- C3: for `n ≥ 1`, `generate(n)` has length `n`, starts with 0, and each
consecutive difference has absolute value `i` with every term nonnegative. -/
theorem generate_output_invariants (n : ℕ) (hn : 1 ≤ n) :
    (recemans_sequence n).length = n ∧
    (recemans_sequence n).getD 0 0 = 0 ∧
    ∀ i, 0 < i → i < n →
      |(recemans_sequence n).getD i 0 - (recemans_sequence n).getD (i - 1) 0| = (i : ℤ) ∧
      0 ≤ (recemans_sequence n).getD i 0 := by
  have hlen : (recemans_sequence n).length = n := recemans_sequence_length n hn
  refine ⟨hlen, ?_, ?_⟩
  · unfold recemans_sequence
    rw [recSeqAux_getD _ _ _ _ _ _ (by simp)]
    simp
  · intro i hi hin
    have hstep := (recemans_sequence_inv n).2 i hi (by omega)
    constructor
    · rw [hstep]
      unfold recaman_next
      split
      · simp
      · rw [abs_sub_comm]
        simp
    · have hmem : (recemans_sequence n).getD i 0 ∈ recemans_sequence n := by
        rw [List.getD_eq_getElem _ _ (by omega)]
        exact List.getElem_mem _
      exact (recemans_sequence_inv n).1 _ hmem

/-- C3 witness at `n = 3`. -/
theorem generate_output_invariants_witness :
    1 ≤ 3 ∧
    ((recemans_sequence 3).length = 3 ∧
    (recemans_sequence 3).getD 0 0 = 0 ∧
    ∀ i, 0 < i → i < 3 →
      |(recemans_sequence 3).getD i 0 - (recemans_sequence 3).getD (i - 1) 0| = (i : ℤ) ∧
      0 ≤ (recemans_sequence 3).getD i 0) :=
  ⟨by decide, generate_output_invariants 3 (by decide)⟩

/-- A 3D point/vector, as carried by the `np.array([x, y, z])` values in `seq.py`. -/
structure Vec3 where
  x : ℝ
  y : ℝ
  z : ℝ

noncomputable def vadd (a b : Vec3) : Vec3 := ⟨a.x + b.x, a.y + b.y, a.z + b.z⟩

noncomputable def vsub (a b : Vec3) : Vec3 := ⟨a.x - b.x, a.y - b.y, a.z - b.z⟩

noncomputable def vsmul (c : ℝ) (a : Vec3) : Vec3 := ⟨c * a.x, c * a.y, c * a.z⟩

noncomputable def vdot (a b : Vec3) : ℝ := a.x * b.x + a.y * b.y + a.z * b.z

/-- Cross product `np.cross` for 3-vectors. -/
noncomputable def vcross (a b : Vec3) : Vec3 :=
  ⟨a.y * b.z - a.z * b.y, a.z * b.x - a.x * b.z, a.x * b.y - a.y * b.x⟩

/-- Euclidean norm `np.linalg.norm`. -/
noncomputable def vnorm (a : Vec3) : ℝ := Real.sqrt (vdot a a)

/-- A 3x3 matrix, stored by rows, as in the `np.array([[..],[..],[..]])` literals. -/
structure Mat3 where
  r0 : Vec3
  r1 : Vec3
  r2 : Vec3

noncomputable def madd (A B : Mat3) : Mat3 := ⟨vadd A.r0 B.r0, vadd A.r1 B.r1, vadd A.r2 B.r2⟩

noncomputable def msmul (c : ℝ) (A : Mat3) : Mat3 := ⟨vsmul c A.r0, vsmul c A.r1, vsmul c A.r2⟩

/-- Identity matrix `np.identity(3)`. -/
noncomputable def mid3 : Mat3 := ⟨⟨1, 0, 0⟩, ⟨0, 1, 0⟩, ⟨0, 0, 1⟩⟩

noncomputable def colx (A : Mat3) : Vec3 := ⟨A.r0.x, A.r1.x, A.r2.x⟩

noncomputable def coly (A : Mat3) : Vec3 := ⟨A.r0.y, A.r1.y, A.r2.y⟩

noncomputable def colz (A : Mat3) : Vec3 := ⟨A.r0.z, A.r1.z, A.r2.z⟩

/-- Matrix product `A.dot(B)`. -/
noncomputable def mmul (A B : Mat3) : Mat3 :=
  ⟨⟨vdot A.r0 (colx B), vdot A.r0 (coly B), vdot A.r0 (colz B)⟩,
   ⟨vdot A.r1 (colx B), vdot A.r1 (coly B), vdot A.r1 (colz B)⟩,
   ⟨vdot A.r2 (colx B), vdot A.r2 (coly B), vdot A.r2 (colz B)⟩⟩

/-- Row-vector–matrix product `c.dot(R)` as used in `tube_along_curve`. -/
noncomputable def vmulMat (c : Vec3) (R : Mat3) : Vec3 :=
  ⟨vdot c (colx R), vdot c (coly R), vdot c (colz R)⟩

/-- Definition of `interpolate_arcs(a0, a1, start_twist_degree, twist_factor, resolution)` from
`seq.py`, with the integer sequence values as inputs and exact real arithmetic. -/
noncomputable def interpolate_arcs (a0 a1 : ℤ) (start_twist_degree twist_factor : ℝ)
    (resolution : ℕ) : List Vec3 :=
  let u : ℝ := 0.5 * ((a0 : ℝ) + (a1 : ℝ))
  let r : ℝ := 0.5 * |(a1 : ℝ) - (a0 : ℝ)|
  let k : ℕ := (⌊2 * r * (resolution : ℝ)⌋).toNat
  let flipped : Bool := decide (a1 < a0)
  (List.range k).map (fun i =>
    let t : ℕ := if flipped then k - i else i
    let deg : ℝ := Real.pi * (1 - (t : ℝ) / (k : ℝ))
    let z : ℝ := r * Real.cos deg + u
    let h : ℝ := |r * Real.sin deg|
    let s : ℝ := ((a1 : ℝ) - (a0 : ℝ)) / (k : ℝ) * (i : ℝ) + (a0 : ℝ) + start_twist_degree
    ⟨h * Real.cos (s * twist_factor), h * Real.sin (s * twist_factor), z⟩)

/-- C4: `interpolate_arcs` returns exactly `resolution * |a1 - a0|` points
(the `floor` in `k = int(2 * r * resolution)` is exact on these integer inputs);
in particular 0 points when `a0 = a1`. -/
theorem interpolate_arcs_length (a0 a1 : ℤ) (start_twist_degree twist_factor : ℝ)
    (resolution : ℕ) :
    (interpolate_arcs a0 a1 start_twist_degree twist_factor resolution).length
      = resolution * (a1 - a0).natAbs := by
  unfold interpolate_arcs
  simp only [List.length_map, List.length_range]
  have h : (2 : ℝ) * ((0.5 : ℝ) * |(a1 : ℝ) - (a0 : ℝ)|) * (resolution : ℝ)
      = ((resolution * (a1 - a0).natAbs : ℕ) : ℝ) := by
    push_cast [Int.cast_natAbs]
    ring
  rw [h, Int.floor_natCast, Int.toNat_natCast]

/-- C10: every sample returned by `interpolate_arcs` lies in the slab
`min(a0,a1) ≤ z ≤ max(a0,a1)` and within distance `|a1-a0|/2` of the z-axis. -/
theorem interpolate_arcs_bounds (a0 a1 : ℤ) (start_twist_degree twist_factor : ℝ)
    (resolution : ℕ) (p : Vec3)
    (hp : p ∈ interpolate_arcs a0 a1 start_twist_degree twist_factor resolution) :
    ((min a0 a1 : ℤ) : ℝ) ≤ p.z ∧ p.z ≤ ((max a0 a1 : ℤ) : ℝ) ∧
    Real.sqrt (p.x ^ 2 + p.y ^ 2) ≤ |(a1 : ℝ) - (a0 : ℝ)| / 2 := by
  unfold interpolate_arcs at hp
  simp only [List.mem_map, List.mem_range] at hp
  obtain ⟨i, hi, hpe⟩ := hp
  subst hpe
  simp only
  set r : ℝ := 0.5 * |(a1 : ℝ) - (a0 : ℝ)| with hrdef
  set u : ℝ := 0.5 * ((a0 : ℝ) + (a1 : ℝ)) with hudef
  have hr : 0 ≤ r := by
    rw [hrdef]
    positivity
  set deg : ℝ := Real.pi * (1 - (((if decide (a1 < a0) = true then
      (⌊2 * r * (resolution : ℝ)⌋.toNat - i) else i) : ℕ) : ℝ)
      / ((⌊2 * r * (resolution : ℝ)⌋.toNat : ℕ) : ℝ)) with hdeg
  have hc1 : Real.cos deg ≤ 1 := Real.cos_le_one deg
  have hc2 : -1 ≤ Real.cos deg := Real.neg_one_le_cos deg
  have hzlo : u - r ≤ r * Real.cos deg + u := by nlinarith
  have hzhi : r * Real.cos deg + u ≤ u + r := by nlinarith
  have hmin : ((min a0 a1 : ℤ) : ℝ) = u - r := by
    rcases le_total (a0 : ℝ) (a1 : ℝ) with h | h
    · rw [min_eq_left (by exact_mod_cast h)]
      rw [hudef, hrdef, abs_of_nonneg (by linarith)]
      ring
    · rw [min_eq_right (by exact_mod_cast h)]
      rw [hudef, hrdef, abs_of_nonpos (by linarith)]
      ring
  have hmax : ((max a0 a1 : ℤ) : ℝ) = u + r := by
    rcases le_total (a0 : ℝ) (a1 : ℝ) with h | h
    · rw [max_eq_right (by exact_mod_cast h)]
      rw [hudef, hrdef, abs_of_nonneg (by linarith)]
      ring
    · rw [max_eq_left (by exact_mod_cast h)]
      rw [hudef, hrdef, abs_of_nonpos (by linarith)]
      ring
  refine ⟨by rw [hmin]; exact hzlo, by rw [hmax]; exact hzhi, ?_⟩
  set θ : ℝ := (((a1 : ℝ) - (a0 : ℝ)) / ((⌊2 * r * (resolution : ℝ)⌋.toNat : ℕ) : ℝ)
      * (i : ℝ) + (a0 : ℝ) + start_twist_degree) * twist_factor with hθ
  set h : ℝ := |r * Real.sin deg| with hh
  have hhnn : 0 ≤ h := abs_nonneg _
  have hsq : (h * Real.cos θ) ^ 2 + (h * Real.sin θ) ^ 2 = h ^ 2 := by
    have hpyth := Real.sin_sq_add_cos_sq θ
    nlinarith
  rw [hsq, Real.sqrt_sq hhnn]
  have hhr : h ≤ r := by
    rw [hh, abs_mul, abs_of_nonneg hr]
    have hs1 : |Real.sin deg| ≤ 1 := abs_le.mpr ⟨Real.neg_one_le_sin deg, Real.sin_le_one deg⟩
    nlinarith
  rw [hrdef] at hhr
  linarith

lemma interpolate_arcs_zero_one :
    interpolate_arcs 0 1 0 0 1 = [⟨0, 0, 0⟩] := by
  unfold interpolate_arcs
  norm_num
  norm_num [List.range_succ, Real.sin_pi, Real.cos_pi]

/-- C10 witness: the single sample of `interpolate_arcs 0 1 0 0 1` satisfies
the slab and radius bounds. -/
theorem interpolate_arcs_bounds_witness :
    (⟨0, 0, 0⟩ : Vec3) ∈ interpolate_arcs 0 1 0 0 1 ∧
    ((min 0 1 : ℤ) : ℝ) ≤ (⟨0, 0, 0⟩ : Vec3).z ∧
    (⟨0, 0, 0⟩ : Vec3).z ≤ ((max 0 1 : ℤ) : ℝ) ∧
    Real.sqrt ((⟨0, 0, 0⟩ : Vec3).x ^ 2 + (⟨0, 0, 0⟩ : Vec3).y ^ 2)
      ≤ |((1 : ℤ) : ℝ) - ((0 : ℤ) : ℝ)| / 2 := by
  have hmem : (⟨0, 0, 0⟩ : Vec3) ∈ interpolate_arcs 0 1 0 0 1 := by
    rw [interpolate_arcs_zero_one]
    exact List.mem_singleton.mpr rfl
  exact ⟨hmem, interpolate_arcs_bounds 0 1 0 0 1 ⟨0, 0, 0⟩ hmem⟩

/-- Definition of `rotation_matrix_from_vectors(a, b)` from `seq.py`:
`R = np.identity(3) + vx + vx.dot(vx) * 1.0 / (1 + c)` with `v = np.cross(a, b)`,
`c = np.dot(a, b)` and `vx` the skew-symmetric matrix of `v`. There is no guard
for the anti-parallel case `c = -1`. -/
noncomputable def rotation_matrix_from_vectors (a b : Vec3) : Mat3 :=
  let v := vcross a b
  let c := vdot a b
  let vx : Mat3 := ⟨⟨0, -v.z, v.y⟩, ⟨v.z, 0, -v.x⟩, ⟨-v.y, v.x, 0⟩⟩
  madd (madd mid3 vx) (msmul (1 / (1 + c)) (mmul vx vx))

/-- C6: at the anti-parallel input `a = (0,0,-1)`, `b = (0,0,1)` the denominator of the code `1 + c` is exactly 0 (so `seq.py` divides by zero), and the matrix
it builds leaves `a` fixed instead of rotating it onto `b`: no explicit
180-degree fallback exists in the code. -/
theorem rotation_antiparallel_unguarded :
    1 + vdot ⟨0, 0, -1⟩ ⟨0, 0, 1⟩ = 0 ∧
    vmulMat ⟨0, 0, -1⟩ (rotation_matrix_from_vectors ⟨0, 0, -1⟩ ⟨0, 0, 1⟩)
      = (⟨0, 0, -1⟩ : Vec3) ∧
    (⟨0, 0, -1⟩ : Vec3) ≠ (⟨0, 0, 1⟩ : Vec3) := by
  refine ⟨?_, ?_, ?_⟩
  · unfold vdot
    norm_num
  · unfold rotation_matrix_from_vectors vcross vmulMat mmul madd msmul
      mid3 vadd vsmul colx coly colz
    norm_num [vdot]
  · intro h
    have := congrArg Vec3.z h
    norm_num at this

/-- Definition of `circle_xy(radius, resolution)` from `seq.py`. -/
noncomputable def circle_xy (radius : ℝ) (resolution : ℕ) : List Vec3 :=
  (List.range resolution).map (fun (i : ℕ) =>
    let d : ℝ := (i : ℝ) / (resolution : ℝ) * 2 * Real.pi
    ⟨radius * Real.cos d, radius * Real.sin d, 0⟩)

/-- One cross-section ring of `tube_along_curve`: the (unnormalized) tangent
`v0` is divided by its norm, rotated onto `(0,0,1)`, and each circle point `c`
contributes the vertex `place + c.dot(R)`. -/
noncomputable def tube_ring (circle : List Vec3) (place v0 : Vec3) : List Vec3 :=
  let v := vsmul (1 / vnorm v0) v0
  let R := rotation_matrix_from_vectors v ⟨0, 0, 1⟩
  circle.map (fun c => vadd place (vmulMat c R))

/-- Definition of `tube_along_curve(points, radius, resolution, vertex_index_offset)` from
`seq.py`: one ring per interior segment start, a final ring at the last point
reusing the tangent of the last segment, and two 1-based triangles per ring pair and
angular slot. -/
noncomputable def tube_along_curve (points : List Vec3) (radius : ℝ)
    (resolution : ℕ) (vertex_index_offset : ℕ) : List Vec3 × List (ℕ × ℕ × ℕ) :=
  let circle := circle_xy radius resolution
  let n := resolution
  let d0 : Vec3 := ⟨0, 0, 0⟩
  let vertex_list :=
    (List.range (points.length - 1)).flatMap
      (fun i => tube_ring circle (points.getD i d0)
        (vsub (points.getD (i + 1) d0) (points.getD i d0)))
    ++ tube_ring circle (points.getD (points.length - 1) d0)
        (vsub (points.getD (points.length - 1) d0) (points.getD (points.length - 2) d0))
  let face_list :=
    (List.range (points.length - 1)).flatMap (fun i =>
      (List.range n).flatMap (fun j =>
        [((i + 0) * n + (j + 0) % n + 1 + vertex_index_offset,
          (i + 1) * n + (j + 1) % n + 1 + vertex_index_offset,
          (i + 1) * n + (j + 0) % n + 1 + vertex_index_offset),
         ((i + 0) * n + (j + 0) % n + 1 + vertex_index_offset,
          (i + 0) * n + (j + 1) % n + 1 + vertex_index_offset,
          (i + 1) * n + (j + 1) % n + 1 + vertex_index_offset)]))
  (vertex_list, face_list)

lemma length_flatMap_const {α β : Type} (l : List α) (f : α → List β) (c : ℕ)
    (h : ∀ x ∈ l, (f x).length = c) : (l.flatMap f).length = l.length * c := by
  induction l with
  | nil => simp
  | cons a t ih =>
      simp only [List.flatMap_cons, List.length_append, List.length_cons]
      rw [h a (by simp), ih (fun x hx => h x (by simp [hx]))]
      ring

lemma tube_ring_length (circle : List Vec3) (place v0 : Vec3) :
    (tube_ring circle place v0).length = circle.length := by
  unfold tube_ring
  simp

lemma circle_xy_length (radius : ℝ) (resolution : ℕ) :
    (circle_xy radius resolution).length = resolution := by
  unfold circle_xy
  rw [List.length_map, List.length_range]

lemma tube_vertex_length (points : List Vec3) (radius : ℝ) (resolution : ℕ)
    (vertex_index_offset : ℕ) (hm : 1 ≤ points.length) :
    (tube_along_curve points radius resolution vertex_index_offset).1.length
      = points.length * resolution := by
  unfold tube_along_curve
  simp only [List.length_append, tube_ring_length, circle_xy_length]
  rw [length_flatMap_const _ _ resolution
    (fun x _ => by rw [tube_ring_length, circle_xy_length])]
  simp only [List.length_range]
  have h1 : points.length - 1 + 1 = points.length := by omega
  calc (points.length - 1) * resolution + resolution
      = ((points.length - 1) + 1) * resolution := by ring
    _ = points.length * resolution := by rw [h1]

lemma tube_face_length (points : List Vec3) (radius : ℝ) (resolution : ℕ)
    (vertex_index_offset : ℕ) :
    (tube_along_curve points radius resolution vertex_index_offset).2.length
      = 2 * (points.length - 1) * resolution := by
  unfold tube_along_curve
  simp only
  rw [length_flatMap_const _ _ (resolution * 2)
    (fun i _ => by
      rw [length_flatMap_const _ _ 2 (fun j _ => by simp)]
      simp)]
  simp only [List.length_range]
  ring

lemma face_index_bound (m n i j v u off : ℕ) (hi : i < m - 1) (hj : j < n) (hu : u ≤ 1) :
    1 + off ≤ (i + u) * n + (j + v) % n + 1 + off ∧
    (i + u) * n + (j + v) % n + 1 + off ≤ m * n + off := by
  refine ⟨by omega, ?_⟩
  have hn : 0 < n := by omega
  have h1 : (j + v) % n < n := Nat.mod_lt _ hn
  have h2 : i + u ≤ m - 1 := by omega
  have h3 : (i + u) * n ≤ (m - 1) * n := Nat.mul_le_mul_right n h2
  have h4 : (m - 1) * n + n = m * n := by
    have hm : 1 ≤ m := by omega
    calc (m - 1) * n + n = ((m - 1) + 1) * n := by ring
      _ = m * n := by rw [Nat.sub_add_cancel hm]
  omega

lemma tube_face_bounds (points : List Vec3) (radius : ℝ) (resolution : ℕ)
    (vertex_index_offset : ℕ) :
    ∀ fc ∈ (tube_along_curve points radius resolution vertex_index_offset).2,
      (1 + vertex_index_offset ≤ fc.1 ∧
        fc.1 ≤ points.length * resolution + vertex_index_offset) ∧
      (1 + vertex_index_offset ≤ fc.2.1 ∧
        fc.2.1 ≤ points.length * resolution + vertex_index_offset) ∧
      (1 + vertex_index_offset ≤ fc.2.2 ∧
        fc.2.2 ≤ points.length * resolution + vertex_index_offset) := by
  intro fc hfc
  unfold tube_along_curve at hfc
  simp only [List.mem_flatMap, List.mem_range, List.mem_cons,
    List.mem_singleton, List.not_mem_nil, or_false] at hfc
  obtain ⟨i, hi, j, hj, hface⟩ := hfc
  rcases hface with rfl | rfl
  · exact ⟨face_index_bound _ _ _ _ _ _ _ hi hj (by omega),
      face_index_bound _ _ _ _ _ _ _ hi hj (by omega),
      face_index_bound _ _ _ _ _ _ _ hi hj (by omega)⟩
  · exact ⟨face_index_bound _ _ _ _ _ _ _ hi hj (by omega),
      face_index_bound _ _ _ _ _ _ _ hi hj (by omega),
      face_index_bound _ _ _ _ _ _ _ hi hj (by omega)⟩

/-- C5: on a curve of `m ≥ 2` points, `tube_along_curve` yields exactly
`m * resolution` vertices and `2 * (m - 1) * resolution` triangles, and every
vertex index in a face lies in `[1 + offset, m * resolution + offset]`. -/
theorem tube_topology (points : List Vec3) (radius : ℝ) (resolution : ℕ)
    (vertex_index_offset : ℕ) (hm : 2 ≤ points.length) :
    (tube_along_curve points radius resolution vertex_index_offset).1.length
      = points.length * resolution ∧
    (tube_along_curve points radius resolution vertex_index_offset).2.length
      = 2 * (points.length - 1) * resolution ∧
    ∀ fc ∈ (tube_along_curve points radius resolution vertex_index_offset).2,
      (1 + vertex_index_offset ≤ fc.1 ∧
        fc.1 ≤ points.length * resolution + vertex_index_offset) ∧
      (1 + vertex_index_offset ≤ fc.2.1 ∧
        fc.2.1 ≤ points.length * resolution + vertex_index_offset) ∧
      (1 + vertex_index_offset ≤ fc.2.2 ∧
        fc.2.2 ≤ points.length * resolution + vertex_index_offset) :=
  ⟨tube_vertex_length points radius resolution vertex_index_offset (by omega),
   tube_face_length points radius resolution vertex_index_offset,
   tube_face_bounds points radius resolution vertex_index_offset⟩

/-- C5 witness: a two-point curve with `resolution = 3` and offset 5. -/
theorem tube_topology_witness :
    2 ≤ ([⟨0, 0, 0⟩, ⟨0, 0, 1⟩] : List Vec3).length ∧
    ((tube_along_curve [⟨0, 0, 0⟩, ⟨0, 0, 1⟩] 1 3 5).1.length
      = ([⟨0, 0, 0⟩, ⟨0, 0, 1⟩] : List Vec3).length * 3 ∧
    (tube_along_curve [⟨0, 0, 0⟩, ⟨0, 0, 1⟩] 1 3 5).2.length
      = 2 * (([⟨0, 0, 0⟩, ⟨0, 0, 1⟩] : List Vec3).length - 1) * 3 ∧
    ∀ fc ∈ (tube_along_curve [⟨0, 0, 0⟩, ⟨0, 0, 1⟩] 1 3 5).2,
      (1 + 5 ≤ fc.1 ∧
        fc.1 ≤ ([⟨0, 0, 0⟩, ⟨0, 0, 1⟩] : List Vec3).length * 3 + 5) ∧
      (1 + 5 ≤ fc.2.1 ∧
        fc.2.1 ≤ ([⟨0, 0, 0⟩, ⟨0, 0, 1⟩] : List Vec3).length * 3 + 5) ∧
      (1 + 5 ≤ fc.2.2 ∧
        fc.2.2 ≤ ([⟨0, 0, 0⟩, ⟨0, 0, 1⟩] : List Vec3).length * 3 + 5)) :=
  ⟨by simp, tube_topology [⟨0, 0, 0⟩, ⟨0, 0, 1⟩] 1 3 5 (by simp)⟩

/-- C7: at the degenerate two-point curve `[(0,0,0), (0,0,0)]` the norm of
the tangent is exactly 0 (so `seq.py` divides by zero in `v /= np.linalg.norm(v)`),
yet `tube_along_curve` still produces a full mesh of `2 * 8` vertices and
`2 * 8` faces: nothing in the code fails explicitly. -/
theorem tube_degenerate_segment_no_failure :
    vnorm (vsub (⟨0, 0, 0⟩ : Vec3) (⟨0, 0, 0⟩ : Vec3)) = 0 ∧
    (tube_along_curve [⟨0, 0, 0⟩, ⟨0, 0, 0⟩] 1 8 0).1.length = 16 ∧
    (tube_along_curve [⟨0, 0, 0⟩, ⟨0, 0, 0⟩] 1 8 0).2.length = 16 := by
  refine ⟨?_, ?_, ?_⟩
  · unfold vnorm vsub vdot
    norm_num
  · rw [tube_vertex_length _ _ _ _ (by simp)]
    simp
  · rw [tube_face_length]
    simp

/-- The post-parsing body of `main` in `seq.py` (lines 119-131), up to the data
handed to `save_obj`: generate the sequence, concatenate the per-pair arcs with
alternating start twist (`0` for even `i`, `pi / twist_factor` for odd `i`),
extrude the tube, and if `number_axis` is set append a straight axis tube from
`min(seq)` to `max(seq)` with an index offset of `len(vertex_list)`. -/
noncomputable def pipeline (n : ℕ) (twist_factor : ℝ) (arc_resolution : ℕ)
    (tube_radius : ℝ) (tube_resolution : ℕ) (number_axis : Bool)
    (number_axis_radius : ℝ) : List Vec3 × List (ℕ × ℕ × ℕ) :=
  let seq := recemans_sequence n
  let curve := (List.range (seq.length - 1)).flatMap (fun i =>
    let start_twist_degree : ℝ :=
      if (i + 1) % 2 = 0 then 0 else Real.pi / twist_factor
    interpolate_arcs (seq.getD i 0) (seq.getD (i + 1) 0) start_twist_degree
      twist_factor arc_resolution)
  let base := tube_along_curve curve tube_radius tube_resolution 0
  if number_axis then
    let a : Vec3 := ⟨0, 0, ((seq.min?.getD 0 : ℤ) : ℝ)⟩
    let b : Vec3 := ⟨0, 0, ((seq.max?.getD 0 : ℤ) : ℝ)⟩
    let axis := tube_along_curve [a, b] number_axis_radius tube_resolution
      base.1.length
    (base.1 ++ axis.1, base.2 ++ axis.2)
  else
    base

/-- C9: the pipeline is a deterministic function of its command-line arguments:
two runs on identical arguments yield identical vertex and face data (and hence
byte-identical serialized output). -/
theorem pipeline_deterministic (n : ℕ) (twist_factor : ℝ) (arc_resolution : ℕ)
    (tube_radius : ℝ) (tube_resolution : ℕ) (number_axis : Bool)
    (number_axis_radius : ℝ) (out1 out2 : List Vec3 × List (ℕ × ℕ × ℕ))
    (h1 : out1 = pipeline n twist_factor arc_resolution tube_radius
      tube_resolution number_axis number_axis_radius)
    (h2 : out2 = pipeline n twist_factor arc_resolution tube_radius
      tube_resolution number_axis number_axis_radius) :
    out1 = out2 :=
  h1.trans h2.symm

/-- C9 witness: two runs at the default-like arguments agree. -/
theorem pipeline_deterministic_witness :
    pipeline 2 1 1 1 3 true 1 = pipeline 2 1 1 1 3 true 1 :=
  pipeline_deterministic 2 1 1 1 3 true 1 _ _ rfl rfl

/-- C8: `main` performs no argument validation: at the invalid input `n = 0`
(`n < 1`) the sequence generator is still invoked and yields the non-empty
degenerate list `[0]` (length 1, not 0), and the pipeline proceeds with it
instead of rejecting the arguments before mesh generation. -/
theorem invalid_arguments_not_rejected :
    recemans_sequence 0 = [0] ∧ (recemans_sequence 0).length = 1 := by decide
